import Mathlib

/-!
Shallow embedding of the core of the tois2020 safe-exploration-algorithm repository:
the classification policies (Boltzmann softmax, epsilon-greedy), the online pairwise
ranking policy, the regret-accumulating training loop and the task-graph engine, with
theorems settling the spec claims C1..C10.

Machine floats are modelled as real numbers; numpy arrays as total functions; in-place
array writes as `Function.update`; sparse rows as association lists of (column, value).
-/

open scoped BigOperators
open Classical

noncomputable section

namespace SafeExp

/-! ### Sparse feature rows and dot products -/

/-- A sparse feature row: the (x.indices[i], x.data[i]) pairs for i < x.nnz. -/
abbrev SparseVec := List (ℕ × ℝ)

/-- `x.dot(w)[a]` for a weight matrix `w` indexed by (column, action):
`s[a] = Σ_i data[i] * w[indices[i], a]`. -/
def sparseDot (x : SparseVec) (w : ℕ × ℕ → ℝ) (a : ℕ) : ℝ :=
  (x.map (fun cv => cv.2 * w (cv.1, a))).sum

/-! ### Softmax / log-softmax (rulpy.math) -/

/-- softmax over the k-vector `s` (indices in `Finset.range k`). -/
def softmax (k : ℕ) (s : ℕ → ℝ) (a : ℕ) : ℝ :=
  Real.exp (s a) / ∑ b ∈ Finset.range k, Real.exp (s b)

/-- softmax of a `Fin`-indexed score vector. -/
def softmaxF {k : ℕ} (s : Fin k → ℝ) (a : Fin k) : ℝ :=
  Real.exp (s a) / ∑ b, Real.exp (s b)

/-- log-softmax of a `Fin`-indexed score vector. -/
def logSoftmaxF {k : ℕ} (s : Fin k → ℝ) (a : Fin k) : ℝ :=
  s a - Real.log (∑ b, Real.exp (s b))

/-- Kronecker delta `1.0 if aprime == a else 0.0` from the Boltzmann update. -/
def kron (aprime a : ℕ) : ℝ := if aprime = a then 1 else 0

/-- np.argmax for a `Fin`-indexed vector: the first (least) index attaining the
maximum (policies/util.argmax). -/
def argmaxF {k : ℕ} [NeZero k] (v : Fin k → ℝ) : Fin k :=
  Finset.min' (Finset.univ.filter fun a => ∀ b, v b ≤ v a) (by
    obtain ⟨a, -, ha⟩ := Finset.exists_max_image (Finset.univ : Finset (Fin k)) v
      ⟨⟨0, Nat.pos_of_ne_zero (NeZero.ne k)⟩, Finset.mem_univ _⟩
    exact ⟨a, Finset.mem_filter.2 ⟨Finset.mem_univ _, fun b => ha b (Finset.mem_univ b)⟩⟩)

/-- np.argmax over the first `k` naturals (junk value 0 for `k = 0`, where numpy
would raise). -/
def argmaxK (k : ℕ) (s : ℕ → ℝ) : ℕ :=
  ((List.range k).argmax s).getD 0

/-- np.max over a k-vector (junk value `s 0` for `k = 0`, where numpy would raise). -/
def vecMax (k : ℕ) (s : ℕ → ℝ) : ℝ :=
  ((List.range k).map s).foldl max (s 0)

/-! ### The Boltzmann (softmax) policy — boltzmann.py -/

/-- `_BoltzmannPolicy`: hyperparameters and the k×d weight matrix, stored
(column, action)-indexed as in `w[col, aprime]`. -/
structure BoltzmannPolicy where
  k : ℕ
  d : ℕ
  lr : ℝ
  l2 : ℝ
  tau : ℝ
  w : ℕ × ℕ → ℝ

/-- The inner loop of `_BoltzmannPolicy.update`: for one nonzero column `col` with
value `val`, the in-place SGD write to `w[col, aprime]` for every `aprime < k`. -/
def boltzInner (lr l2 tau loss : ℝ) (sm : ℕ → ℝ) (a k : ℕ) (col : ℕ) (val : ℝ)
    (w : ℕ × ℕ → ℝ) : ℕ × ℕ → ℝ :=
  (List.range k).foldl (fun wcur aprime =>
    Function.update wcur (col, aprime)
      (wcur (col, aprime) -
        lr * ((val / tau) * loss * sm aprime * (kron aprime a - sm a) +
          l2 * wcur (col, aprime)))) w

/-- `_BoltzmannPolicy.update`: softmax cross-derivative SGD step with L2 shrinkage,
looping in place over the nonzero columns and all actions; the softmax `sm` is
computed once from the pre-update scores and held fixed. -/
def BoltzmannPolicy.update (p : BoltzmannPolicy) (x : SparseVec) (a : ℕ) (r : ℝ) :
    BoltzmannPolicy :=
  let s := sparseDot x p.w
  let sm := softmax p.k (fun b => s b / p.tau)
  let loss := -r
  { p with
    w := x.foldl (fun wcur cv => boltzInner p.lr p.l2 p.tau loss sm a p.k cv.1 cv.2 wcur) p.w }

/-- The Boltzmann score vector `s/tau` fed to softmax and log-softmax, as a
`Fin p.k`-indexed vector. -/
def BoltzmannPolicy.scoreF (p : BoltzmannPolicy) (x : SparseVec) : Fin p.k → ℝ :=
  fun a => sparseDot x p.w a.val / p.tau

/-- `_BoltzmannPolicy.probability`: `softmax(s / tau)[a]`. -/
def BoltzmannPolicy.probability (p : BoltzmannPolicy) (x : SparseVec) (a : Fin p.k) : ℝ :=
  softmaxF (p.scoreF x) a

/-- The vector `r = log(-log(u)) - log_softmax(s)` from `_BoltzmannPolicy.draw`,
as a function of the per-action uniform draws `u`. -/
def gumbelR {k : ℕ} (s : Fin k → ℝ) (u : Fin k → ℝ) (a : Fin k) : ℝ :=
  Real.log (-(Real.log (u a))) - logSoftmaxF s a

/-- `argmax(-r)` from `_BoltzmannPolicy.draw`, for a score vector `s` (already divided
by tau) and the vector `u` of per-action uniform draws. -/
def drawF {k : ℕ} [NeZero k] (s : Fin k → ℝ) (u : Fin k → ℝ) : Fin k :=
  argmaxF (fun a => -(gumbelR s u a))

/-- `_BoltzmannPolicy.draw` as a function of the uniform draws `u`. -/
def BoltzmannPolicy.draw (p : BoltzmannPolicy) [NeZero p.k] (x : SparseVec)
    (u : Fin p.k → ℝ) : Fin p.k :=
  drawF (p.scoreF x) u

/-! ### The epsilon-greedy policy — epsgreedy.py -/

/-- `_EpsgreedyPolicy`. -/
structure EpsgreedyPolicy where
  k : ℕ
  d : ℕ
  lr : ℝ
  l2 : ℝ
  eps : ℝ
  w : ℕ × ℕ → ℝ

/-- `_EpsgreedyPolicy.update`: squared-error gradient step on the taken action's
column, with L2 shrinkage, in place over the nonzero columns. -/
def EpsgreedyPolicy.update (p : EpsgreedyPolicy) (x : SparseVec) (a : ℕ) (r : ℝ) :
    EpsgreedyPolicy :=
  let s := sparseDot x p.w a
  let loss := s - r
  { p with
    w := x.foldl (fun wcur cv =>
      Function.update wcur (cv.1, a)
        (wcur (cv.1, a) - p.lr * (cv.2 * loss + p.l2 * wcur (cv.1, a)))) p.w }

/-- `_EpsgreedyPolicy.probability`: `eps/k` plus `(1-eps)` times the uniform mass over
the argmax ties, evaluated at `a`. -/
def EpsgreedyPolicy.probability (p : EpsgreedyPolicy) (x : SparseVec) (a : ℕ) : ℝ :=
  let s := sparseDot x p.w
  let up := 1 / (p.k : ℝ)
  let m := vecMax p.k s
  let ties := ((List.range p.k).filter (fun b => s b = m)).length
  let gp := (if s a = m then (1 : ℝ) else 0) / (ties : ℝ)
  p.eps * up + (1 - p.eps) * gp

/-- `_EpsgreedyPolicy.max`: argmax of the per-action linear scores. -/
def EpsgreedyPolicy.maxAction (p : EpsgreedyPolicy) (x : SparseVec) : ℕ :=
  argmaxK p.k (sparseDot x p.w)

/-- `_EpsgreedyPolicy.draw` as a function of the uniform draw `u` and the value `z`
of `np.random.randint(k)`. -/
def EpsgreedyPolicy.draw (p : EpsgreedyPolicy) (x : SparseVec) (u : ℝ) (z : ℕ) : ℕ :=
  if u < p.eps then z else p.maxAction x

/-! ### The online ranking policy — ranking/policies/online.py -/

/-- `_OnlinePolicy`: a length-d linear ranker. -/
structure OnlinePolicy where
  d : ℕ
  lr : ℝ
  w : ℕ → ℝ

/-- `np.dot(x[i], w)` for a document feature row. -/
def dotFeat (d : ℕ) (xi : ℕ → ℝ) (w : ℕ → ℝ) : ℝ :=
  ∑ f ∈ Finset.range d, xi f * w f

/-- The inner j-loop of `_OnlinePolicy.update` at position `i`: starting from
`grad = zeros`, `h = 1.0`, accumulate the pairwise hinge gradient and hinge loss
over all documents `j`. -/
def onlineAcc (hg gh : ℝ → ℝ) (x : ℕ → ℕ → ℝ) (s : ℕ → ℝ) (ndocs : ℕ)
    (r : ℕ → ℕ) (i : ℕ) : (ℕ → ℝ) × ℝ :=
  (List.range ndocs).foldl
    (fun (acc : (ℕ → ℝ) × ℝ) j =>
      (fun f => acc.1 f + (x (r i) f - x (r j) f) * gh (s (r i) - s (r j)),
        acc.2 + hg (s (r i) - s (r j))))
    (fun _ => (0 : ℝ), (1 : ℝ))

/-- `_OnlinePolicy.update`, parameterized by the rulpy.math functions `hinge`,
`grad_hinge` and `grad_additive_dcg` (library code outside src/). `x` is the
ndocs×d document-feature matrix, `r` the ranking, `c` the positions of interest.
The scores `s` are computed once from the pre-update parameters; inside the loop
over `c`, the pairwise gradient and the hinge total are accumulated over all
document pairs, then one SGD step is applied. -/
def OnlinePolicy.update (hg gh gd : ℝ → ℝ) (p : OnlinePolicy)
    (x : ℕ → ℕ → ℝ) (ndocs : ℕ) (r : ℕ → ℕ) (c : List ℕ) : OnlinePolicy :=
  let s := fun i => dotFeat p.d (x i) p.w
  { p with
    w := c.foldl (fun wcur i =>
      let acc := onlineAcc hg gh x s ndocs r i
      fun f => wcur f - p.lr * acc.1 f * gd acc.2) p.w }

/-! ### Serialization records — __getstate/__setstate -/

/-- The dict produced by boltzmann.py's `__getstate`. -/
structure BoltzmannRecord where
  k : ℕ
  d : ℕ
  lr : ℝ
  l2 : ℝ
  tau : ℝ
  w : ℕ × ℕ → ℝ

/-- boltzmann.py `__getstate`. -/
def BoltzmannPolicy.getstate (p : BoltzmannPolicy) : BoltzmannRecord :=
  ⟨p.k, p.d, p.lr, p.l2, p.tau, p.w⟩

/-- boltzmann.py `__setstate`: every field of the receiver is overwritten from the
state record. -/
def BoltzmannPolicy.setstate (_p : BoltzmannPolicy) (st : BoltzmannRecord) :
    BoltzmannPolicy :=
  ⟨st.k, st.d, st.lr, st.l2, st.tau, st.w⟩

/-- The dict produced by epsgreedy.py's `__getstate`. -/
structure EpsgreedyRecord where
  k : ℕ
  d : ℕ
  lr : ℝ
  l2 : ℝ
  eps : ℝ
  w : ℕ × ℕ → ℝ

/-- epsgreedy.py `__getstate`. -/
def EpsgreedyPolicy.getstate (p : EpsgreedyPolicy) : EpsgreedyRecord :=
  ⟨p.k, p.d, p.lr, p.l2, p.eps, p.w⟩

/-- epsgreedy.py `__setstate`. -/
def EpsgreedyPolicy.setstate (_p : EpsgreedyPolicy) (st : EpsgreedyRecord) :
    EpsgreedyPolicy :=
  ⟨st.k, st.d, st.lr, st.l2, st.eps, st.w⟩

/-! ### Deep copies and parameter-storage independence — __deepcopy

Numpy arrays are mutable heap objects; to state storage independence we model the
heap explicitly: a store maps addresses to array contents, a policy holds the
address of its parameter array, and an in-place `update` writes through that
address. `__deepcopy` (all three policies: `np.copy(self.w)` plus a fresh object
carrying the same scalar hyperparameters) copies the contents to a fresh address. -/

/-- The heap of parameter arrays. -/
structure ArrayStore where
  mem : ℕ → ℕ × ℕ → ℝ
  next : ℕ

/-- A policy as held at runtime: scalar hyperparameters (of any of the three policy
kinds) by value, the parameter array by reference. -/
structure PolicyRef (H : Type) where
  hyper : H
  wAddr : ℕ

/-- `__deepcopy`: a fresh object with the same hyperparameters whose parameter array
is `np.copy` of the original — fresh address, same contents. -/
def deepcopy {H : Type} (σ : ArrayStore) (p : PolicyRef H) : ArrayStore × PolicyRef H :=
  (⟨Function.update σ.mem σ.next (σ.mem p.wAddr), σ.next + 1⟩, ⟨p.hyper, σ.next⟩)

/-- One in-place `update` call through a policy's reference: `g` is the pure
array transformation of the step (e.g. `fun w => (BoltzmannPolicy.update ⟨k,d,lr,l2,tau,w⟩ x a r).w`). -/
def updateThrough (σ : ArrayStore) (addr : ℕ) (g : (ℕ × ℕ → ℝ) → ℕ × ℕ → ℝ) : ArrayStore :=
  { σ with mem := Function.update σ.mem addr (g (σ.mem addr)) }

/-- A sequence of in-place updates through one policy's reference. -/
def updateSeq (σ : ArrayStore) (addr : ℕ) (gs : List ((ℕ × ℕ → ℝ) → ℕ × ℕ → ℝ)) :
    ArrayStore :=
  gs.foldl (fun σcur g => updateThrough σcur addr g) σ

/-! ### The regret trajectory of classification_run — classification/train.py -/

/-- Modelled from the spec: `optimize` (experiments/classification/optimization.py is
not under src/) accumulates train and test regret over a batch of training indices,
the sum per index of the gap between the best achievable and the realized reward
(spec section 4.2: one sequential step per index, empty batch contributes zero). -/
def optimize (gapTrain gapTest : ℕ → ℝ) (batch : List ℕ) : ℝ × ℝ :=
  ((batch.map gapTrain).sum, (batch.map gapTest).sum)

/-- The contiguous slice `train_indices[start:stop]`. -/
def sliceIdx (trainIndices : ℕ → ℕ) (start stop : ℕ) : List ℕ :=
  (List.range' start (stop - start)).map trainIndices

/-- The accumulated (regret, test_regret) trajectory of `classification_run`:
`out['regret'][0] = 0`, and for each checkpoint `i ≥ 1`,
`out['regret'][i] = out['regret'][i-1] + train_regret` where the interval cost comes
from `optimize` over exactly `train_indices[points[i-1]:points[i]]`. -/
def regretTraj (gapTrain gapTest : ℕ → ℝ) (points : ℕ → ℕ) (tIdx : ℕ → ℕ) :
    ℕ → ℝ × ℝ
  | 0 => (0, 0)
  | i + 1 =>
      let prev := regretTraj gapTrain gapTest points tIdx i
      let cost := optimize gapTrain gapTest (sliceIdx tIdx (points i) (points (i + 1)))
      (prev.1 + cost.1, prev.2 + cost.2)

/-! ### The task-graph engine — backflow / rulpy.pipeline (not under src/)

Modelled from the spec (section 4.4): task nodes are keyed by (function identity,
canonical argument encoding); submitting a key already pending/running/completed
returns a handle to the existing node (single-flight); a node reaching a terminal
state holds the one result (or failure) of its single execution. Concurrency is
modelled as an arbitrary interleaving: any list of submit/start/finish events. -/

/-- Node states: `pending → running → completed v | failed e`, terminal once
completed or failed. -/
inductive NodeState (V E : Type) where
  | pending : NodeState V E
  | running : NodeState V E
  | completed : V → NodeState V E
  | failed : E → NodeState V E

/-- Engine state: per key the node (none = never submitted), the number of
executions of the task body so far, and the node keys of the handles handed out. -/
structure EngineState (κ V E : Type) where
  node : κ → Option (NodeState V E)
  execCount : κ → ℕ
  handles : List κ

/-- Scheduler events, interleaved arbitrarily: a submission of key `k`, a worker
picking up the pending node `k`, a worker finishing the execution of node `k`. -/
inductive EngineOp (κ : Type) where
  | submit : κ → EngineOp κ
  | start : κ → EngineOp κ
  | finish : κ → EngineOp κ
deriving DecidableEq

/-- One engine transition. `submit` creates the node only when the key is new and
always hands out a handle to the node at that key; `start` moves a pending node to
running; `finish` executes the body exactly at the running → terminal transition. -/
def engineStep {κ V E : Type} [DecidableEq κ] (body : κ → Except E V)
    (σ : EngineState κ V E) : EngineOp κ → EngineState κ V E
  | .submit k =>
      match σ.node k with
      | none =>
          { σ with
            node := Function.update σ.node k (some .pending)
            handles := σ.handles ++ [k] }
      | some _ => { σ with handles := σ.handles ++ [k] }
  | .start k =>
      match σ.node k with
      | some .pending => { σ with node := Function.update σ.node k (some .running) }
      | _ => σ
  | .finish k =>
      match σ.node k with
      | some .running =>
          { σ with
            node := Function.update σ.node k (some (match body k with
              | .ok v => .completed v
              | .error e => .failed e)),
            execCount := Function.update σ.execCount k (σ.execCount k + 1) }
      | _ => σ

/-- The engine state at the start of a process: no nodes, no executions, no handles. -/
def engineInit (κ V E : Type) : EngineState κ V E :=
  ⟨fun _ => none, fun _ => 0, []⟩

/-- Running an arbitrary interleaving of engine events. -/
def engineRun {κ V E : Type} [DecidableEq κ] (body : κ → Except E V)
    (L : List (EngineOp κ)) : EngineState κ V E :=
  L.foldl (engineStep body) (engineInit κ V E)

/-- The single-flight invariant at key `k`: at most one execution ever happens, a
terminal node holds exactly the result of the single body execution, and no
execution has happened while the node is absent or non-terminal. -/
def engineInv {κ V E : Type} (body : κ → Except E V) (σ : EngineState κ V E)
    (k : κ) : Prop :=
  σ.execCount k ≤ 1
  ∧ (∀ v, σ.node k = some (NodeState.completed v) →
      body k = Except.ok v ∧ σ.execCount k = 1)
  ∧ (∀ e, σ.node k = some (NodeState.failed e) →
      body k = Except.error e ∧ σ.execCount k = 1)
  ∧ ((σ.node k = none ∨ σ.node k = some NodeState.pending ∨
      σ.node k = some NodeState.running) → σ.execCount k = 0)

/-- The number of submissions of key `k` in an event interleaving. -/
def submitCount {κ : Type} [DecidableEq κ] (k : κ) : List (EngineOp κ) → ℕ
  | [] => 0
  | op :: L => (if op = EngineOp.submit k then 1 else 0) + submitCount k L

/-! ### Bounds-checked operations — spec section 4.1 / 7

Modelled from the spec where the code is outside src/: `dataset.get` and the error
semantics of out-of-range indices (IndexRangeError). The policy bodies themselves
are the src/ updates above. -/

/-- The error taxonomy members relevant to the policy operations. -/
inductive PolicyError where
  | indexRange
  | dimensionMismatch
deriving DecidableEq

/-- Modelled from the spec: a classification dataset of `n` rows
(experiments/classification/dataset.py is not under src/); `get` fails with an
index-range error out of bounds. -/
structure CDataset where
  n : ℕ
  rows : ℕ → SparseVec

/-- `dataset.get(index)` with bounds checking. -/
def CDataset.get (ds : CDataset) (index : ℕ) : Except PolicyError SparseVec :=
  if index < ds.n then .ok (ds.rows index) else .error .indexRange

/-- Checked `_BoltzmannPolicy.update`: row fetched through `dataset.get`, the action
index checked against `[0, k)`. -/
def BoltzmannPolicy.updateChecked (p : BoltzmannPolicy) (ds : CDataset)
    (index a : ℕ) (r : ℝ) : Except PolicyError BoltzmannPolicy := do
  let x ← ds.get index
  if a < p.k then .ok (p.update x a r) else .error .indexRange

/-- Checked `_EpsgreedyPolicy.update`. -/
def EpsgreedyPolicy.updateChecked (p : EpsgreedyPolicy) (ds : CDataset)
    (index a : ℕ) (r : ℝ) : Except PolicyError EpsgreedyPolicy := do
  let x ← ds.get index
  if a < p.k then .ok (p.update x a r) else .error .indexRange

/-- Checked `_EpsgreedyPolicy.draw` on dataset row `index` (randomness `u`, `z`). -/
def EpsgreedyPolicy.drawChecked (p : EpsgreedyPolicy) (ds : CDataset) (index : ℕ)
    (u : ℝ) (z : ℕ) : Except PolicyError ℕ := do
  let x ← ds.get index
  .ok (p.draw x u z)

/-- Checked `_EpsgreedyPolicy.max` on dataset row `index`. -/
def EpsgreedyPolicy.maxChecked (p : EpsgreedyPolicy) (ds : CDataset) (index : ℕ) :
    Except PolicyError ℕ := do
  let x ← ds.get index
  .ok (p.maxAction x)

/-- Checked `_BoltzmannPolicy.max` on dataset row `index`. -/
def BoltzmannPolicy.maxChecked (p : BoltzmannPolicy) (ds : CDataset) (index : ℕ) :
    Except PolicyError ℕ := do
  let x ← ds.get index
  .ok (argmaxK p.k (sparseDot x p.w))

/-- Checked `_BoltzmannPolicy.draw` on dataset row `index` (Gumbel draws `u`). -/
def BoltzmannPolicy.drawChecked (p : BoltzmannPolicy) (ds : CDataset) (index : ℕ)
    (u : ℕ → ℝ) : Except PolicyError ℕ := do
  let x ← ds.get index
  let s := fun b => sparseDot x p.w b / p.tau
  let logp := fun b => s b - Real.log (∑ b2 ∈ Finset.range p.k, Real.exp (s b2))
  .ok (argmaxK p.k (fun b => -(Real.log (-(Real.log (u b))) - logp b)))

/-! ### The uniform cube measure for the Gumbel-max draw -/

/-- The distribution of one `np.random.uniform(0.0, 1.0)` draw. -/
def unif01 : MeasureTheory.Measure ℝ :=
  MeasureTheory.volume.restrict (Set.Ioo 0 1)

/-- The joint distribution of the k independent per-action uniform draws made by
`_BoltzmannPolicy.draw`. -/
def cubeMeasure (k : ℕ) : MeasureTheory.Measure (Fin k → ℝ) :=
  MeasureTheory.Measure.pi (fun _ => unif01)

instance : MeasureTheory.IsProbabilityMeasure unif01 := by
  constructor
  simp [unif01, Real.volume_Ioo]

instance (k : ℕ) : MeasureTheory.IsProbabilityMeasure (cubeMeasure k) := by
  unfold cubeMeasure
  infer_instance

/-- The open unit cube, where every uniform draw lands almost surely. -/
def cubeSet (k : ℕ) : Set (Fin k → ℝ) :=
  Set.pi Set.univ (fun _ => Set.Ioo 0 1)

/-- The event, in coordinates split at the drawn action `a`, that every other
action's uniform draw falls below the power `u_a ^ (p_b / p_a)` — the image of
the strict Gumbel-argmax event under the per-coordinate algebra of the proof. -/
def powEvent {n : ℕ} (s : Fin (n + 1) → ℝ) (a : Fin (n + 1)) : Set (Fin (n + 1) → ℝ) :=
  {u | ∀ j : Fin n,
    u (a.succAbove j) < (u a) ^ (softmaxF s (a.succAbove j) / softmaxF s a)}

/-- The null tie set at coordinate `j`: the perturbed scores of `a` and of
`a.succAbove j` coincide. -/
def tieSet {n : ℕ} (s : Fin (n + 1) → ℝ) (a : Fin (n + 1)) (j : Fin n) :
    Set (Fin (n + 1) → ℝ) :=
  {u | u (a.succAbove j) = (u a) ^ (softmaxF s (a.succAbove j) / softmaxF s a)}

/-- A concrete dataset used by witnesses: three rows, one nonzero feature each. -/
def wDs : CDataset :=
  ⟨3, fun i => [(0, (i : ℝ) + 1)]⟩

/-- A concrete Boltzmann policy used by witnesses: k = 2, d = 1, zero weights. -/
def wBp : BoltzmannPolicy :=
  ⟨2, 1, 1 / 100, 0, 1, fun _ => 0⟩

/-- A concrete epsilon-greedy policy used by witnesses: k = 2, d = 1, zero weights. -/
def wEp : EpsgreedyPolicy :=
  ⟨2, 1, 1 / 100, 0, 1 / 2, fun _ => 0⟩

/-- A concrete online ranking policy used by witnesses: d = 1, unit weights. -/
def wOp : OnlinePolicy :=
  ⟨1, 1, fun _ => 1⟩

/-- A concrete sparse feature row used by witnesses. -/
def wXrow : SparseVec :=
  [(0, 1)]

/-- A concrete array store used by witnesses: one allocated array of zeros. -/
def wStore : ArrayStore :=
  ⟨fun _ _ => 0, 1⟩

/-- A concrete policy reference used by witnesses. -/
def wPr : PolicyRef ℝ :=
  ⟨1, 0⟩

instance : NeZero wBp.k :=
  ⟨by decide⟩

/-- A concrete document-feature matrix used by witnesses. -/
def wXmat : ℕ → ℕ → ℝ :=
  fun i _ => (i : ℝ)

/-! ## Helper lemmas -/

theorem boltzInner_apply (lr l2 tau loss : ℝ) (sm : ℕ → ℝ) (a : ℕ) :
    ∀ (k : ℕ) (col : ℕ) (val : ℝ) (w : ℕ × ℕ → ℝ) (c b : ℕ),
      boltzInner lr l2 tau loss sm a k col val w (c, b)
        = if c = col ∧ b < k then
            w (c, b) - lr * ((val / tau) * loss * sm b * (kron b a - sm a) + l2 * w (c, b))
          else w (c, b) := by
  intro k
  induction k with
  | zero => intro col val w c b; simp [boltzInner]
  | succ k ih =>
      intro col val w c b
      have hstep : boltzInner lr l2 tau loss sm a (k + 1) col val w
          = Function.update (boltzInner lr l2 tau loss sm a k col val w) (col, k)
              (boltzInner lr l2 tau loss sm a k col val w (col, k) -
                lr * ((val / tau) * loss * sm k * (kron k a - sm a) +
                  l2 * boltzInner lr l2 tau loss sm a k col val w (col, k))) := by
        unfold boltzInner
        rw [List.range_succ, List.foldl_append, List.foldl_cons, List.foldl_nil]
      rw [hstep]
      by_cases hcb : (c, b) = (col, k)
      · have hc : c = col := congrArg Prod.fst hcb
        have hb : b = k := congrArg Prod.snd hcb
        rw [hcb, Function.update_same, ih col val w col k]
        simp [hc, hb]
      · rw [Function.update_noteq hcb, ih col val w c b]
        by_cases hc : c = col
        · subst hc
          have hbk : b ≠ k := fun h => hcb (by rw [h])
          by_cases hb : b < k
          · simp [hb, Nat.lt_succ_of_lt hb]
          · have : ¬ b < k + 1 := fun h => hb (Nat.lt_of_le_of_ne (Nat.lt_succ_iff.mp h) hbk)
            simp [hb, this]
        · simp [hc]

theorem boltzFold_apply (lr l2 tau loss : ℝ) (sm : ℕ → ℝ) (a k : ℕ) :
    ∀ (L : SparseVec) (w : ℕ × ℕ → ℝ), (L.map Prod.fst).Nodup →
      (∀ cv ∈ L, ∀ b, b < k →
        L.foldl (fun wcur cv => boltzInner lr l2 tau loss sm a k cv.1 cv.2 wcur) w (cv.1, b)
          = w (cv.1, b) - lr * ((cv.2 / tau) * loss * sm b * (kron b a - sm a) + l2 * w (cv.1, b)))
      ∧ (∀ cb : ℕ × ℕ, cb.1 ∉ L.map Prod.fst →
          L.foldl (fun wcur cv => boltzInner lr l2 tau loss sm a k cv.1 cv.2 wcur) w cb = w cb)
      ∧ (∀ cb : ℕ × ℕ, k ≤ cb.2 →
          L.foldl (fun wcur cv => boltzInner lr l2 tau loss sm a k cv.1 cv.2 wcur) w cb = w cb) := by
  intro L
  induction L with
  | nil => intro w _; refine ⟨?_, ?_, ?_⟩ <;> simp
  | cons cv0 L ih =>
      intro w hnd
      rw [List.map_cons, List.nodup_cons] at hnd
      obtain ⟨hni, hnd2⟩ := hnd
      have ihw := ih (boltzInner lr l2 tau loss sm a k cv0.1 cv0.2 w) hnd2
      refine ⟨?_, ?_, ?_⟩
      · intro cv hcv b hb
        rcases List.mem_cons.mp hcv with hcv | hcv
        · subst hcv
          rw [List.foldl_cons]
          have hm : cv.1 ∉ L.map Prod.fst := hni
          rw [ihw.2.1 (cv.1, b) hm]
          rw [boltzInner_apply lr l2 tau loss sm a k cv.1 cv.2 w cv.1 b]
          simp [hb]
        · rw [List.foldl_cons, ihw.1 cv hcv b hb]
          have hc : cv.1 ≠ cv0.1 := by
            intro h
            exact hni (h ▸ List.mem_map_of_mem Prod.fst hcv)
          rw [boltzInner_apply lr l2 tau loss sm a k cv0.1 cv0.2 w cv.1 b]
          simp [hc]
      · intro cb hcb
        rw [List.map_cons, List.mem_cons] at hcb
        push_neg at hcb
        rw [List.foldl_cons, ihw.2.1 cb hcb.2]
        rw [show cb = (cb.1, cb.2) from rfl,
          boltzInner_apply lr l2 tau loss sm a k cv0.1 cv0.2 w cb.1 cb.2]
        simp [hcb.1]
      · intro cb hcb
        rw [List.foldl_cons, ihw.2.2 cb hcb]
        rw [show cb = (cb.1, cb.2) from rfl,
          boltzInner_apply lr l2 tau loss sm a k cv0.1 cv0.2 w cb.1 cb.2]
        have : ¬ cb.2 < k := not_lt.mpr hcb
        simp [this]

theorem onlineAcc_eq (hg gh : ℝ → ℝ) (x : ℕ → ℕ → ℝ) (s : ℕ → ℝ)
    (r : ℕ → ℕ) (i : ℕ) : ∀ ndocs : ℕ,
    onlineAcc hg gh x s ndocs r i
      = (fun f => ∑ j ∈ Finset.range ndocs, (x (r i) f - x (r j) f) * gh (s (r i) - s (r j)),
          1 + ∑ j ∈ Finset.range ndocs, hg (s (r i) - s (r j))) := by
  intro ndocs
  induction ndocs with
  | zero => simp [onlineAcc]
  | succ n ih =>
      have hstep : onlineAcc hg gh x s (n + 1) r i
          = (fun f => (onlineAcc hg gh x s n r i).1 f +
                (x (r i) f - x (r n) f) * gh (s (r i) - s (r n)),
              (onlineAcc hg gh x s n r i).2 + hg (s (r i) - s (r n))) := by
        unfold onlineAcc
        rw [List.range_succ, List.foldl_append, List.foldl_cons, List.foldl_nil]
      rw [hstep, ih]
      refine congrArg₂ Prod.mk ?_ ?_
      · funext f
        rw [Finset.sum_range_succ]
      · rw [Finset.sum_range_succ, add_assoc]

theorem foldl_max_ge (l : List ℝ) : ∀ init : ℝ,
    init ≤ l.foldl max init ∧ ∀ y ∈ l, y ≤ l.foldl max init := by
  induction l with
  | nil => intro init; simp
  | cons x l ih =>
      intro init
      rw [List.foldl_cons]
      obtain ⟨h1, h2⟩ := ih (max init x)
      refine ⟨le_trans (le_max_left _ _) h1, ?_⟩
      intro y hy
      rcases List.mem_cons.mp hy with hy | hy
      · subst hy
        exact le_trans (le_max_right _ _) h1
      · exact h2 y hy

theorem foldl_max_mem (l : List ℝ) : ∀ init : ℝ,
    l.foldl max init = init ∨ l.foldl max init ∈ l := by
  induction l with
  | nil => intro init; simp
  | cons x l ih =>
      intro init
      rw [List.foldl_cons]
      rcases ih (max init x) with h | h
      · rcases max_choice init x with hc | hc
        · exact Or.inl (h.trans hc)
        · exact Or.inr (List.mem_cons.mpr (Or.inl (h.trans hc)))
      · exact Or.inr (List.mem_cons.mpr (Or.inr h))

theorem vecMax_le (k : ℕ) (s : ℕ → ℝ) (b : ℕ) (hb : b < k) : s b ≤ vecMax k s :=
  (foldl_max_ge ((List.range k).map s) (s 0)).2 (s b)
    (List.mem_map_of_mem s (List.mem_range.mpr hb))

theorem vecMax_attained (k : ℕ) (s : ℕ → ℝ) (hk : 0 < k) :
    ∃ b, b < k ∧ s b = vecMax k s := by
  rcases foldl_max_mem ((List.range k).map s) (s 0) with h | h
  · exact ⟨0, hk, h.symm⟩
  · obtain ⟨b, hb, hsb⟩ := List.mem_map.mp h
    exact ⟨b, List.mem_range.mp hb, hsb⟩

/-! ## Claim theorems -/

/-- C4: every call of the online ranking policy's update computes the scores once
from the pre-update parameters; for each position i of c, in order, the pairwise
hinge loss and its gradient are accumulated over all document pairs, and then
exactly one SGD step `w := w - lr * grad * grad_additive_dcg(h)` is applied, with
the additive-DCG derivative a single global scalar multiplier on the aggregated
gradient; d and lr are unchanged. -/
theorem online_update_aggregation (hg gh gd : ℝ → ℝ) (p : OnlinePolicy)
    (x : ℕ → ℕ → ℝ) (ndocs : ℕ) (r : ℕ → ℕ) (c : List ℕ) :
    (OnlinePolicy.update hg gh gd p x ndocs r c).w
      = c.foldl (fun wcur i => fun f =>
          wcur f - p.lr *
              (∑ j ∈ Finset.range ndocs,
                (x (r i) f - x (r j) f) *
                  gh (dotFeat p.d (x (r i)) p.w - dotFeat p.d (x (r j)) p.w)) *
              gd (1 + ∑ j ∈ Finset.range ndocs,
                hg (dotFeat p.d (x (r i)) p.w - dotFeat p.d (x (r j)) p.w))) p.w
    ∧ (OnlinePolicy.update hg gh gd p x ndocs r c).d = p.d
    ∧ (OnlinePolicy.update hg gh gd p x ndocs r c).lr = p.lr := by
  refine ⟨?_, rfl, rfl⟩
  show c.foldl (fun wcur i =>
      let acc := onlineAcc hg gh x (fun i2 => dotFeat p.d (x i2) p.w) ndocs r i
      fun f => wcur f - p.lr * acc.1 f * gd acc.2) p.w = _
  simp only [onlineAcc_eq]

/-- Witness for C4 at a concrete instance. -/
theorem online_update_aggregation_witness :
    (OnlinePolicy.update id id id wOp wXmat 2 id [0]).w
      = List.foldl (fun (wcur : ℕ → ℝ) (i : ℕ) => fun f =>
          wcur f - wOp.lr *
              (∑ j ∈ Finset.range 2,
                (wXmat (id i) f - wXmat (id j) f) *
                  id (dotFeat wOp.d (wXmat (id i)) wOp.w
                    - dotFeat wOp.d (wXmat (id j)) wOp.w)) *
              id (1 + ∑ j ∈ Finset.range 2,
                id (dotFeat wOp.d (wXmat (id i)) wOp.w
                  - dotFeat wOp.d (wXmat (id j)) wOp.w))) wOp.w [0] :=
  (online_update_aggregation id id id wOp wXmat 2 id [0]).1

/-- C10: calling the online ranking policy's update with an empty positions
sequence is a no-op: the parameters and every other field are unchanged. -/
theorem online_update_empty_noop (hg gh gd : ℝ → ℝ) (p : OnlinePolicy)
    (x : ℕ → ℕ → ℝ) (ndocs : ℕ) (r : ℕ → ℕ) :
    OnlinePolicy.update hg gh gd p x ndocs r [] = p := rfl

/-- Witness for C10 at a concrete instance. -/
theorem online_update_empty_noop_witness :
    OnlinePolicy.update id id id ⟨2, 1 / 100, fun _ => 3⟩ (fun _ _ => 5) 4 id []
      = ⟨2, 1 / 100, fun _ => 3⟩ :=
  online_update_empty_noop id id id ⟨2, 1 / 100, fun _ => 3⟩ (fun _ _ => 5) 4 id

/-- C7: serializing a Boltzmann or epsilon-greedy policy via __getstate and
restoring via __setstate reproduces every hyperparameter (k, d, lr, l2, and tau
or eps) and the parameter array exactly, whatever the prior state of the
receiver. -/
theorem policy_state_roundtrip (p q : BoltzmannPolicy) (p2 q2 : EpsgreedyPolicy) :
    q.setstate p.getstate = p ∧ q2.setstate p2.getstate = p2 := by
  constructor
  · cases p; rfl
  · cases p2; rfl

/-- Witness for C7 at concrete instances. -/
theorem policy_state_roundtrip_witness :
    wBp.setstate wBp.getstate = wBp ∧ wEp.setstate wEp.getstate = wEp :=
  policy_state_roundtrip wBp wBp wEp wEp

/-- C5: in classification_run, regret[0] = 0 and regret[i] = regret[i-1] plus the
interval cost returned by optimize over exactly the contiguous training-index
slice between checkpoints i-1 and i; the interval cost is non-negative, and an
empty interval leaves the accumulated regret exactly unchanged. The same
recurrence holds for test_regret (the second component). -/
theorem classification_regret_recurrence (gT gE : ℕ → ℝ) (points tIdx : ℕ → ℕ)
    (hT : ∀ i, 0 ≤ gT i) (hE : ∀ i, 0 ≤ gE i) :
    regretTraj gT gE points tIdx 0 = (0, 0)
    ∧ (∀ i, regretTraj gT gE points tIdx (i + 1)
        = ((regretTraj gT gE points tIdx i).1
              + (optimize gT gE (sliceIdx tIdx (points i) (points (i + 1)))).1,
            (regretTraj gT gE points tIdx i).2
              + (optimize gT gE (sliceIdx tIdx (points i) (points (i + 1)))).2))
    ∧ (∀ batch : List ℕ, 0 ≤ (optimize gT gE batch).1 ∧ 0 ≤ (optimize gT gE batch).2)
    ∧ (∀ i, points (i + 1) = points i →
        regretTraj gT gE points tIdx (i + 1) = regretTraj gT gE points tIdx i) := by
  refine ⟨rfl, fun i => rfl, ?_, ?_⟩
  · intro batch
    constructor
    · apply List.sum_nonneg
      intro y hy
      obtain ⟨n, -, rfl⟩ := List.mem_map.mp hy
      exact hT n
    · apply List.sum_nonneg
      intro y hy
      obtain ⟨n, -, rfl⟩ := List.mem_map.mp hy
      exact hE n
  · intro i h
    have hempty : sliceIdx tIdx (points i) (points (i + 1)) = [] := by
      unfold sliceIdx
      rw [h, Nat.sub_self]
      rfl
    have hrec : regretTraj gT gE points tIdx (i + 1)
        = ((regretTraj gT gE points tIdx i).1
              + (optimize gT gE (sliceIdx tIdx (points i) (points (i + 1)))).1,
            (regretTraj gT gE points tIdx i).2
              + (optimize gT gE (sliceIdx tIdx (points i) (points (i + 1)))).2) := rfl
    rw [hrec, hempty]
    simp [optimize]

/-- Witness for C5 at a concrete instance: constant unit gaps, identity index maps. -/
theorem classification_regret_recurrence_witness :
    regretTraj (fun _ => 1) (fun _ => 1) id id 0 = (0, 0) :=
  (classification_regret_recurrence (fun _ => 1) (fun _ => 1) id id
    (fun _ => zero_le_one) (fun _ => zero_le_one)).1

/-- C2: for a dataset row with nonzero sparse entries of pairwise distinct columns,
the Boltzmann update performs exactly one SGD step per (nonzero column, action):
`w[col, a'] -= lr * ((val/tau) * loss * sm[a'] * (kron(a',a) - sm[a]) + l2 * w[col, a'])`
with `loss = -r` and `sm` the softmax of the pre-update scores, held fixed;
entries in zero-feature columns, entries beyond action k, and all hyperparameters
are unchanged. -/
theorem boltzmann_update_sgd_step (p : BoltzmannPolicy) (x : SparseVec) (a : ℕ) (r : ℝ)
    (hnd : (x.map Prod.fst).Nodup) :
    (∀ cv ∈ x, ∀ b, b < p.k →
        (p.update x a r).w (cv.1, b)
          = p.w (cv.1, b) - p.lr * ((cv.2 / p.tau) * (-r) *
              softmax p.k (fun b2 => sparseDot x p.w b2 / p.tau) b *
              (kron b a - softmax p.k (fun b2 => sparseDot x p.w b2 / p.tau) a)
              + p.l2 * p.w (cv.1, b)))
    ∧ (∀ cb : ℕ × ℕ, cb.1 ∉ x.map Prod.fst → (p.update x a r).w cb = p.w cb)
    ∧ (∀ cb : ℕ × ℕ, p.k ≤ cb.2 → (p.update x a r).w cb = p.w cb)
    ∧ (p.update x a r).k = p.k ∧ (p.update x a r).d = p.d
    ∧ (p.update x a r).lr = p.lr ∧ (p.update x a r).l2 = p.l2
    ∧ (p.update x a r).tau = p.tau := by
  have h := boltzFold_apply p.lr p.l2 p.tau (-r)
    (softmax p.k (fun b2 => sparseDot x p.w b2 / p.tau)) a p.k x p.w hnd
  exact ⟨h.1, h.2.1, h.2.2, rfl, rfl, rfl, rfl, rfl⟩

/-- Witness for C2 at a concrete instance: the touched cell takes the SGD step,
an untouched column is unchanged. -/
theorem boltzmann_update_sgd_step_witness :
    (wBp.update wXrow 0 1).w (0, 0)
        = wBp.w (0, 0) - wBp.lr * (((1 : ℝ) / wBp.tau) * (-(1 : ℝ)) *
            softmax wBp.k (fun b2 => sparseDot wXrow wBp.w b2 / wBp.tau) 0 *
            (kron 0 0 - softmax wBp.k (fun b2 => sparseDot wXrow wBp.w b2 / wBp.tau) 0)
            + wBp.l2 * wBp.w (0, 0))
    ∧ (wBp.update wXrow 0 1).w (5, 0) = wBp.w (5, 0) :=
  ⟨(boltzmann_update_sgd_step wBp wXrow 0 1 (by simp [wXrow])).1 (0, 1)
      (by simp [wXrow]) 0 (by decide),
    (boltzmann_update_sgd_step wBp wXrow 0 1 (by simp [wXrow])).2.1 (5, 0)
      (by simp [wXrow])⟩

/-- C3: epsilon-greedy probability(x, a) equals eps/k plus (1-eps) times (1/t if a
attains the maximum score, where t is the number of actions tied for the maximum,
else 0); consequently probability(x, a) is at least eps/k whenever 0 ≤ eps ≤ 1. -/
theorem epsgreedy_probability_spec (p : EpsgreedyPolicy) (x : SparseVec) (a : ℕ)
    (hk : 0 < p.k) (ha : a < p.k) :
    p.probability x a
        = p.eps / p.k + (1 - p.eps) *
          (if ∀ b < p.k, sparseDot x p.w b ≤ sparseDot x p.w a then
            1 / (((List.range p.k).filter
              (fun b => ∀ b2 < p.k, sparseDot x p.w b2 ≤ sparseDot x p.w b)).length : ℝ)
          else 0)
    ∧ (0 ≤ p.eps → p.eps ≤ 1 → p.eps / p.k ≤ p.probability x a) := by
  have hiff : ∀ b, b < p.k →
      ((sparseDot x p.w b = vecMax p.k (sparseDot x p.w)) ↔
        (∀ b2, b2 < p.k → sparseDot x p.w b2 ≤ sparseDot x p.w b)) := by
    intro b hb
    constructor
    · intro hbm b2 hb2
      rw [hbm]
      exact vecMax_le p.k (sparseDot x p.w) b2 hb2
    · intro hdom
      obtain ⟨b0, hb0, hb0m⟩ := vecMax_attained p.k (sparseDot x p.w) hk
      exact le_antisymm (vecMax_le p.k (sparseDot x p.w) b hb) (hb0m ▸ hdom b0 hb0)
  have hfilter : (List.range p.k).filter
        (fun b => sparseDot x p.w b = vecMax p.k (sparseDot x p.w))
      = (List.range p.k).filter
        (fun b => ∀ b2, b2 < p.k → sparseDot x p.w b2 ≤ sparseDot x p.w b) := by
    apply List.filter_congr
    intro b hb
    simp only [decide_eq_decide]
    exact hiff b (List.mem_range.mp hb)
  have hdef : p.probability x a
      = p.eps * (1 / (p.k : ℝ)) + (1 - p.eps) *
        ((if sparseDot x p.w a = vecMax p.k (sparseDot x p.w) then (1 : ℝ) else 0) /
          (((List.range p.k).filter
            (fun b => sparseDot x p.w b = vecMax p.k (sparseDot x p.w))).length : ℝ)) := rfl
  constructor
  · rw [hdef, hfilter, mul_one_div]
    congr 1
    by_cases hcond : ∀ b2, b2 < p.k → sparseDot x p.w b2 ≤ sparseDot x p.w a
    · rw [if_pos ((hiff a ha).mpr hcond), if_pos hcond]
    · rw [if_neg (fun h => hcond ((hiff a ha).mp h)), if_neg hcond, zero_div]
  · intro h0 h1
    rw [hdef]
    have hgp : 0 ≤ (if sparseDot x p.w a = vecMax p.k (sparseDot x p.w) then (1 : ℝ) else 0) /
        (((List.range p.k).filter
          (fun b => sparseDot x p.w b = vecMax p.k (sparseDot x p.w))).length : ℝ) := by
      apply div_nonneg
      · split
        · exact zero_le_one
        · exact le_refl 0
      · exact Nat.cast_nonneg _
    rw [show p.eps / (p.k : ℝ) = p.eps * (1 / (p.k : ℝ)) from (mul_one_div p.eps _).symm]
    exact le_add_of_nonneg_right (mul_nonneg (sub_nonneg.mpr h1) hgp)

/-- Witness for C3 at a concrete instance. -/
theorem epsgreedy_probability_spec_witness :
    wEp.probability wXrow 0
        = wEp.eps / wEp.k + (1 - wEp.eps) *
          (if ∀ b < wEp.k, sparseDot wXrow wEp.w b ≤ sparseDot wXrow wEp.w 0 then
            1 / (((List.range wEp.k).filter
              (fun b => ∀ b2 < wEp.k, sparseDot wXrow wEp.w b2 ≤ sparseDot wXrow wEp.w b)).length : ℝ)
          else 0) :=
  (epsgreedy_probability_spec wEp wXrow 0 (by decide) (by decide)).1

theorem engineInv_congr {κ V E : Type} (body : κ → Except E V)
    {σ σ2 : EngineState κ V E} {k : κ} (h : engineInv body σ k)
    (hnode : σ2.node k = σ.node k) (hc : σ2.execCount k = σ.execCount k) :
    engineInv body σ2 k := by
  unfold engineInv at h ⊢
  rw [hnode, hc]
  exact h

theorem engineStep_inv {κ V E : Type} [DecidableEq κ] (body : κ → Except E V)
    (σ : EngineState κ V E) (op : EngineOp κ) (k : κ) (h : engineInv body σ k) :
    engineInv body (engineStep body σ op) k := by
  obtain ⟨h1, h2, h3, h4⟩ := h
  cases op with
  | submit k2 =>
      rcases hnode : σ.node k2 with _ | st
      · simp only [engineStep, hnode]
        by_cases hk : k2 = k
        · subst hk
          have hc0 : σ.execCount k2 = 0 := h4 (Or.inl hnode)
          refine ⟨h1, ?_, ?_, fun _ => hc0⟩
          · intro v hv
            simp at hv
          · intro e he
            simp at he
        · exact engineInv_congr body ⟨h1, h2, h3, h4⟩
            (Function.update_noteq (fun hkk => hk hkk.symm) _ _) rfl
      · simp only [engineStep, hnode]
        exact engineInv_congr body ⟨h1, h2, h3, h4⟩ rfl rfl
  | start k2 =>
      rcases hnode : σ.node k2 with _ | st
      · simp only [engineStep, hnode]
        exact ⟨h1, h2, h3, h4⟩
      · cases st with
        | pending =>
            simp only [engineStep, hnode]
            by_cases hk : k2 = k
            · subst hk
              have hc0 : σ.execCount k2 = 0 := h4 (Or.inr (Or.inl hnode))
              refine ⟨h1, ?_, ?_, fun _ => hc0⟩
              · intro v hv
                simp at hv
              · intro e he
                simp at he
            · exact engineInv_congr body ⟨h1, h2, h3, h4⟩
                (Function.update_noteq (fun hkk => hk hkk.symm) _ _) rfl
        | running =>
            simp only [engineStep, hnode]
            exact ⟨h1, h2, h3, h4⟩
        | completed v =>
            simp only [engineStep, hnode]
            exact ⟨h1, h2, h3, h4⟩
        | failed e =>
            simp only [engineStep, hnode]
            exact ⟨h1, h2, h3, h4⟩
  | finish k2 =>
      rcases hnode : σ.node k2 with _ | st
      · simp only [engineStep, hnode]
        exact ⟨h1, h2, h3, h4⟩
      · cases st with
        | pending =>
            simp only [engineStep, hnode]
            exact ⟨h1, h2, h3, h4⟩
        | running =>
            simp only [engineStep, hnode]
            by_cases hk : k2 = k
            · subst hk
              have hc0 : σ.execCount k2 = 0 := h4 (Or.inr (Or.inr hnode))
              rcases hbody : body k2 with e2 | v2 <;> simp only [hbody]
              · refine ⟨?_, ?_, ?_, ?_⟩
                · show Function.update σ.execCount k2 (σ.execCount k2 + 1) k2 ≤ 1
                  rw [Function.update_same, hc0]
                · intro v hv
                  have hv2 : Function.update σ.node k2 (some (NodeState.failed e2)) k2
                      = some (NodeState.completed v) := hv
                  rw [Function.update_same] at hv2
                  simp at hv2
                · intro e he
                  have he2 : Function.update σ.node k2 (some (NodeState.failed e2)) k2
                      = some (NodeState.failed e) := he
                  rw [Function.update_same] at he2
                  simp only [Option.some.injEq, NodeState.failed.injEq] at he2
                  refine ⟨by rw [hbody, he2], ?_⟩
                  show Function.update σ.execCount k2 (σ.execCount k2 + 1) k2 = 1
                  rw [Function.update_same, hc0]
                · intro hcase
                  exfalso
                  rcases hcase with hc | hc | hc <;>
                  · have hc2 : Function.update σ.node k2 (some (NodeState.failed e2)) k2 = _ := hc
                    rw [Function.update_same] at hc2
                    simp at hc2
              · refine ⟨?_, ?_, ?_, ?_⟩
                · show Function.update σ.execCount k2 (σ.execCount k2 + 1) k2 ≤ 1
                  rw [Function.update_same, hc0]
                · intro v hv
                  have hv2 : Function.update σ.node k2 (some (NodeState.completed v2)) k2
                      = some (NodeState.completed v) := hv
                  rw [Function.update_same] at hv2
                  simp only [Option.some.injEq, NodeState.completed.injEq] at hv2
                  refine ⟨by rw [hbody, hv2], ?_⟩
                  show Function.update σ.execCount k2 (σ.execCount k2 + 1) k2 = 1
                  rw [Function.update_same, hc0]
                · intro e he
                  have he2 : Function.update σ.node k2 (some (NodeState.completed v2)) k2
                      = some (NodeState.failed e) := he
                  rw [Function.update_same] at he2
                  simp at he2
                · intro hcase
                  exfalso
                  rcases hcase with hc | hc | hc <;>
                  · have hc2 : Function.update σ.node k2 (some (NodeState.completed v2)) k2 = _ := hc
                    rw [Function.update_same] at hc2
                    simp at hc2
            · exact engineInv_congr body ⟨h1, h2, h3, h4⟩
                (Function.update_noteq (fun hkk => hk hkk.symm) _ _)
                (Function.update_noteq (fun hkk => hk hkk.symm) _ _)
        | completed v =>
            simp only [engineStep, hnode]
            exact ⟨h1, h2, h3, h4⟩
        | failed e =>
            simp only [engineStep, hnode]
            exact ⟨h1, h2, h3, h4⟩

theorem engineRun_inv {κ V E : Type} [DecidableEq κ] (body : κ → Except E V)
    (L : List (EngineOp κ)) (k : κ) : engineInv body (engineRun body L) k := by
  suffices h : ∀ σ, engineInv body σ k → engineInv body (L.foldl (engineStep body) σ) k by
    refine h _ ?_
    refine ⟨Nat.zero_le 1, ?_, ?_, fun _ => rfl⟩ <;> intro v hv <;> exact Option.noConfusion hv
  induction L with
  | nil => intro σ hσ; exact hσ
  | cons op L ih =>
      intro σ hσ
      exact ih _ (engineStep_inv body σ op k hσ)

theorem count_singleton_eq {κ : Type} [DecidableEq κ] (k k2 : κ) :
    List.count k [k2] = if k2 = k then 1 else 0 := by
  by_cases hk : k2 = k
  · subst hk
    simp
  · simp [List.count_cons, hk]

theorem engineStep_handles {κ V E : Type} [DecidableEq κ] (body : κ → Except E V)
    (σ : EngineState κ V E) (op : EngineOp κ) (k : κ) :
    (engineStep body σ op).handles.count k
      = σ.handles.count k + (if op = EngineOp.submit k then 1 else 0) := by
  cases op with
  | submit k2 =>
      have hif : (if EngineOp.submit k2 = EngineOp.submit k then (1 : ℕ) else 0)
          = if k2 = k then 1 else 0 := by
        by_cases hk : k2 = k
        · rw [if_pos (by rw [hk]), if_pos hk]
        · rw [if_neg (fun hcon => hk (EngineOp.submit.inj hcon)), if_neg hk]
      rcases hnode : σ.node k2 with _ | st <;>
        simp only [engineStep, hnode] <;>
        rw [List.count_append, hif, count_singleton_eq]
  | start k2 =>
      rw [if_neg (fun hcon => EngineOp.noConfusion hcon), Nat.add_zero]
      rcases hnode : σ.node k2 with _ | st
      · simp [engineStep, hnode]
      · cases st <;> simp [engineStep, hnode]
  | finish k2 =>
      rw [if_neg (fun hcon => EngineOp.noConfusion hcon), Nat.add_zero]
      rcases hnode : σ.node k2 with _ | st
      · simp [engineStep, hnode]
      · cases st <;> simp [engineStep, hnode]

theorem submitCount_cons {κ : Type} [DecidableEq κ] (k : κ) (op : EngineOp κ)
    (L : List (EngineOp κ)) :
    submitCount k (op :: L) = (if op = EngineOp.submit k then 1 else 0) + submitCount k L :=
  rfl

theorem engineRun_handle_count {κ V E : Type} [DecidableEq κ] (body : κ → Except E V)
    (L : List (EngineOp κ)) (k : κ) :
    (engineRun body L : EngineState κ V E).handles.count k = submitCount k L := by
  suffices h : ∀ σ : EngineState κ V E,
      (L.foldl (engineStep body) σ).handles.count k
        = σ.handles.count k + submitCount k L by
    have := h (engineInit κ V E)
    simpa [engineRun, engineInit] using this
  induction L with
  | nil => intro σ; simp [submitCount]
  | cons op L ih =>
      intro σ
      rw [List.foldl_cons, ih, engineStep_handles body σ op k, submitCount_cons]
      omega

/-- C6: for any task key, any interleaving of any number of submissions with
scheduler events causes at most one execution of the task body; every handle of
that key refers to the one node at that key (one handle per submission), and a
terminal node holds exactly the single execution's result value (or its failure), so
all requesters observe the same cached result without re-execution. -/
theorem engine_single_flight {κ V E : Type} [DecidableEq κ] (body : κ → Except E V)
    (L : List (EngineOp κ)) (k : κ) :
    (engineRun body L).execCount k ≤ 1
    ∧ (∀ v, (engineRun body L).node k = some (NodeState.completed v) →
        body k = Except.ok v ∧ (engineRun body L).execCount k = 1)
    ∧ (∀ e, (engineRun body L).node k = some (NodeState.failed e) →
        body k = Except.error e ∧ (engineRun body L).execCount k = 1)
    ∧ (engineRun body L).handles.count k = submitCount k L := by
  have h := engineRun_inv body L k
  exact ⟨h.1, h.2.1, h.2.2.1, engineRun_handle_count body L k⟩

/-- Witness for C6 at a concrete instance: two submissions, one completed
execution. -/
theorem engine_single_flight_witness :
    (engineRun (fun n : ℕ => (Except.ok n : Except Unit ℕ))
        [EngineOp.submit 0, EngineOp.start 0, EngineOp.finish 0,
          EngineOp.submit 0]).execCount 0 ≤ 1 :=
  (engine_single_flight (fun n : ℕ => (Except.ok n : Except Unit ℕ))
    [EngineOp.submit 0, EngineOp.start 0, EngineOp.finish 0, EngineOp.submit 0] 0).1

theorem updateSeq_frame {addr b : ℕ} (hne : b ≠ addr) :
    ∀ (gs : List ((ℕ × ℕ → ℝ) → ℕ × ℕ → ℝ)) (σ : ArrayStore),
      (updateSeq σ addr gs).mem b = σ.mem b := by
  intro gs
  induction gs with
  | nil => intro σ; rfl
  | cons g gs ih =>
      intro σ
      show (updateSeq (updateThrough σ addr g) addr gs).mem b = σ.mem b
      rw [ih]
      show Function.update σ.mem addr (g (σ.mem addr)) b = σ.mem b
      rw [Function.update_noteq hne]

/-- C8: __deepcopy returns a policy with equal hyperparameters and parameter values
whose parameter storage is independent: any sequence of in-place updates applied
through the copy leaves the original's parameters unchanged, and updates through
the original leave the copy's values unchanged. -/
theorem deepcopy_independent_storage {H : Type} (σ : ArrayStore) (p : PolicyRef H)
    (hv : p.wAddr < σ.next) :
    (deepcopy σ p).2.hyper = p.hyper
    ∧ (deepcopy σ p).1.mem (deepcopy σ p).2.wAddr = σ.mem p.wAddr
    ∧ (deepcopy σ p).1.mem p.wAddr = σ.mem p.wAddr
    ∧ (∀ gs, (updateSeq (deepcopy σ p).1 (deepcopy σ p).2.wAddr gs).mem p.wAddr
        = σ.mem p.wAddr)
    ∧ (∀ gs, (updateSeq (deepcopy σ p).1 p.wAddr gs).mem (deepcopy σ p).2.wAddr
        = σ.mem p.wAddr) := by
  have hne : p.wAddr ≠ σ.next := Nat.ne_of_lt hv
  refine ⟨rfl, ?_, ?_, ?_, ?_⟩
  · show Function.update σ.mem σ.next (σ.mem p.wAddr) σ.next = σ.mem p.wAddr
    rw [Function.update_same]
  · show Function.update σ.mem σ.next (σ.mem p.wAddr) p.wAddr = σ.mem p.wAddr
    rw [Function.update_noteq hne]
  · intro gs
    show (updateSeq (deepcopy σ p).1 σ.next gs).mem p.wAddr = σ.mem p.wAddr
    rw [updateSeq_frame hne gs]
    show Function.update σ.mem σ.next (σ.mem p.wAddr) p.wAddr = σ.mem p.wAddr
    rw [Function.update_noteq hne]
  · intro gs
    show (updateSeq (deepcopy σ p).1 p.wAddr gs).mem σ.next = σ.mem p.wAddr
    rw [updateSeq_frame (Ne.symm hne) gs]
    show Function.update σ.mem σ.next (σ.mem p.wAddr) σ.next = σ.mem p.wAddr
    rw [Function.update_same]

/-- Witness for C8 at a concrete instance. -/
theorem deepcopy_independent_storage_witness :
    (deepcopy wStore wPr).1.mem (deepcopy wStore wPr).2.wAddr = wStore.mem wPr.wAddr :=
  (deepcopy_independent_storage wStore wPr (by decide)).2.1

/-- C9: update, draw and max fail with an index-range error whenever the action
index is outside [0, k) or the dataset row index is outside [0, n), and succeed
without such an error when the indices are in bounds. -/
theorem policy_index_range_errors (p : BoltzmannPolicy) (q : EpsgreedyPolicy)
    (ds : CDataset) (index a : ℕ) (r u : ℝ) (z : ℕ) (uB : ℕ → ℝ) :
    ((index < ds.n ∧ a < p.k) → ∃ p2, p.updateChecked ds index a r = Except.ok p2)
    ∧ (¬(index < ds.n ∧ a < p.k) →
        p.updateChecked ds index a r = Except.error PolicyError.indexRange)
    ∧ ((index < ds.n ∧ a < q.k) → ∃ q2, q.updateChecked ds index a r = Except.ok q2)
    ∧ (¬(index < ds.n ∧ a < q.k) →
        q.updateChecked ds index a r = Except.error PolicyError.indexRange)
    ∧ (index < ds.n →
        (∃ b, p.drawChecked ds index uB = Except.ok b)
        ∧ (∃ b, p.maxChecked ds index = Except.ok b)
        ∧ (∃ b, q.drawChecked ds index u z = Except.ok b)
        ∧ (∃ b, q.maxChecked ds index = Except.ok b))
    ∧ (ds.n ≤ index →
        p.drawChecked ds index uB = Except.error PolicyError.indexRange
        ∧ p.maxChecked ds index = Except.error PolicyError.indexRange
        ∧ q.drawChecked ds index u z = Except.error PolicyError.indexRange
        ∧ q.maxChecked ds index = Except.error PolicyError.indexRange) := by
  refine ⟨?_, ?_, ?_, ?_, ?_, ?_⟩
  · rintro ⟨hi, ha⟩
    refine ⟨p.update (ds.rows index) a r, ?_⟩
    simp [BoltzmannPolicy.updateChecked, CDataset.get, hi, ha, Bind.bind, Except.bind]
  · intro hno
    by_cases hi : index < ds.n
    · have ha : ¬ a < p.k := fun hcon => hno ⟨hi, hcon⟩
      simp [BoltzmannPolicy.updateChecked, CDataset.get, hi, ha, Bind.bind, Except.bind]
    · simp [BoltzmannPolicy.updateChecked, CDataset.get, hi, Bind.bind, Except.bind]
  · rintro ⟨hi, ha⟩
    refine ⟨q.update (ds.rows index) a r, ?_⟩
    simp [EpsgreedyPolicy.updateChecked, CDataset.get, hi, ha, Bind.bind, Except.bind]
  · intro hno
    by_cases hi : index < ds.n
    · have ha : ¬ a < q.k := fun hcon => hno ⟨hi, hcon⟩
      simp [EpsgreedyPolicy.updateChecked, CDataset.get, hi, ha, Bind.bind, Except.bind]
    · simp [EpsgreedyPolicy.updateChecked, CDataset.get, hi, Bind.bind, Except.bind]
  · intro hi
    have hget : ds.get index = Except.ok (ds.rows index) := by
      simp [CDataset.get, hi]
    have h1 : p.drawChecked ds index uB
        = Except.ok (argmaxK p.k (fun b =>
            -(Real.log (-(Real.log (uB b)))
              - (sparseDot (ds.rows index) p.w b / p.tau
                - Real.log (∑ b2 ∈ Finset.range p.k,
                    Real.exp (sparseDot (ds.rows index) p.w b2 / p.tau)))))) := by
      simp only [BoltzmannPolicy.drawChecked, hget]
      rfl
    have h2 : p.maxChecked ds index
        = Except.ok (argmaxK p.k (sparseDot (ds.rows index) p.w)) := by
      simp only [BoltzmannPolicy.maxChecked, hget]
      rfl
    have h3 : q.drawChecked ds index u z = Except.ok (q.draw (ds.rows index) u z) := by
      simp only [EpsgreedyPolicy.drawChecked, hget]
      rfl
    have h4 : q.maxChecked ds index = Except.ok (q.maxAction (ds.rows index)) := by
      simp only [EpsgreedyPolicy.maxChecked, hget]
      rfl
    exact ⟨⟨_, h1⟩, ⟨_, h2⟩, ⟨_, h3⟩, ⟨_, h4⟩⟩
  · intro hge
    have hi : ¬ index < ds.n := not_lt.mpr hge
    refine ⟨?_, ?_, ?_, ?_⟩ <;>
      simp [BoltzmannPolicy.drawChecked, BoltzmannPolicy.maxChecked,
        EpsgreedyPolicy.drawChecked, EpsgreedyPolicy.maxChecked, CDataset.get, hi,
        Bind.bind, Except.bind]

/-- Witness for C9 at a concrete instance: in-bounds update succeeds, out-of-bounds
action index fails with an index-range error. -/
theorem policy_index_range_errors_witness :
    (∃ p2, wBp.updateChecked wDs 0 0 1 = Except.ok p2)
    ∧ wBp.updateChecked wDs 0 5 1 = Except.error PolicyError.indexRange :=
  ⟨(policy_index_range_errors wBp wEp wDs 0 0 1 0 0 (fun _ => 0)).1
      ⟨by decide, by decide⟩,
    (policy_index_range_errors wBp wEp wDs 0 5 1 0 0 (fun _ => 0)).2.1
      (by decide)⟩

/-! ## C1: the Gumbel-max draw is distributed as the softmax -/

theorem sum_exp_pos {k : ℕ} [NeZero k] (s : Fin k → ℝ) : 0 < ∑ b, Real.exp (s b) := by
  haveI : Nonempty (Fin k) := ⟨⟨0, Nat.pos_of_ne_zero (NeZero.ne k)⟩⟩
  exact Finset.sum_pos (fun b _ => Real.exp_pos (s b)) Finset.univ_nonempty

theorem softmaxF_pos {k : ℕ} [NeZero k] (s : Fin k → ℝ) (b : Fin k) :
    0 < softmaxF s b :=
  div_pos (Real.exp_pos _) (sum_exp_pos s)

theorem softmaxF_sum {k : ℕ} [NeZero k] (s : Fin k → ℝ) : (∑ b, softmaxF s b) = 1 := by
  unfold softmaxF
  rw [← Finset.sum_div, div_self (ne_of_gt (sum_exp_pos s))]

theorem logSoftmaxF_eq {k : ℕ} [NeZero k] (s : Fin k → ℝ) (b : Fin k) :
    logSoftmaxF s b = Real.log (softmaxF s b) := by
  unfold logSoftmaxF softmaxF
  rw [Real.log_div (Real.exp_ne_zero _) (ne_of_gt (sum_exp_pos s)), Real.log_exp]

theorem neg_gumbelR {k : ℕ} [NeZero k] (s : Fin k → ℝ) (u : Fin k → ℝ) (b : Fin k) :
    -(gumbelR s u b) = Real.log (softmaxF s b) - Real.log (-(Real.log (u b))) := by
  unfold gumbelR
  rw [neg_sub, logSoftmaxF_eq]

theorem argmaxF_le {k : ℕ} [NeZero k] (v : Fin k → ℝ) (b : Fin k) :
    v b ≤ v (argmaxF v) := by
  have hmem := Finset.min'_mem (Finset.univ.filter fun a => ∀ b2, v b2 ≤ v a)
    (by
      obtain ⟨a, -, ha⟩ := Finset.exists_max_image (Finset.univ : Finset (Fin k)) v
        ⟨⟨0, Nat.pos_of_ne_zero (NeZero.ne k)⟩, Finset.mem_univ _⟩
      exact ⟨a, Finset.mem_filter.2 ⟨Finset.mem_univ _, fun b2 => ha b2 (Finset.mem_univ b2)⟩⟩)
  exact (Finset.mem_filter.mp hmem).2 b

theorem argmaxF_eq_of_strict {k : ℕ} [NeZero k] (v : Fin k → ℝ) (a : Fin k)
    (h : ∀ b, b ≠ a → v b < v a) : argmaxF v = a := by
  have hfil : (Finset.univ.filter fun b => ∀ b2, v b2 ≤ v b) = {a} := by
    apply Finset.ext
    intro b
    rw [Finset.mem_filter, Finset.mem_singleton]
    constructor
    · rintro ⟨-, hb⟩
      by_contra hba
      exact absurd (hb a) (not_le.mpr (h b hba))
    · intro hba
      rw [hba]
      refine ⟨Finset.mem_univ a, fun b2 => ?_⟩
      by_cases hb2 : b2 = a
      · rw [hb2]
      · exact (h b2 hb2).le
  unfold argmaxF
  simp only [hfil]
  exact Finset.min'_singleton a

theorem gumbelCmp_lt {pa pb ua ub : ℝ} (hpa : 0 < pa) (hpb : 0 < pb)
    (hua : ua ∈ Set.Ioo (0 : ℝ) 1) (hub : ub ∈ Set.Ioo (0 : ℝ) 1) :
    (Real.log pb - Real.log (-(Real.log ub)) < Real.log pa - Real.log (-(Real.log ua))
      ↔ ub < ua ^ (pb / pa)) := by
  obtain ⟨hua0, hua1⟩ := hua
  obtain ⟨hub0, hub1⟩ := hub
  have hEa : 0 < -(Real.log ua) := neg_pos.mpr (Real.log_neg hua0 hua1)
  have hEb : 0 < -(Real.log ub) := neg_pos.mpr (Real.log_neg hub0 hub1)
  have key : ub < ua ^ (pb / pa) ↔ pb * -(Real.log ua) < pa * -(Real.log ub) := by
    rw [← Real.log_lt_log_iff hub0 (Real.rpow_pos_of_pos hua0 _), Real.log_rpow hua0,
      div_mul_eq_mul_div, lt_div_iff₀ hpa]
    constructor <;> intro h <;> nlinarith
  rw [← Real.log_div hpb.ne' hEb.ne', ← Real.log_div hpa.ne' hEa.ne',
    Real.log_lt_log_iff (div_pos hpb hEb) (div_pos hpa hEa),
    div_lt_div_iff₀ hEb hEa, key]

theorem gumbelCmp_le {pa pb ua ub : ℝ} (hpa : 0 < pa) (hpb : 0 < pb)
    (hua : ua ∈ Set.Ioo (0 : ℝ) 1) (hub : ub ∈ Set.Ioo (0 : ℝ) 1) :
    (Real.log pb - Real.log (-(Real.log ub)) ≤ Real.log pa - Real.log (-(Real.log ua))
      ↔ ub ≤ ua ^ (pb / pa)) := by
  obtain ⟨hua0, hua1⟩ := hua
  obtain ⟨hub0, hub1⟩ := hub
  have hEa : 0 < -(Real.log ua) := neg_pos.mpr (Real.log_neg hua0 hua1)
  have hEb : 0 < -(Real.log ub) := neg_pos.mpr (Real.log_neg hub0 hub1)
  have key : ub ≤ ua ^ (pb / pa) ↔ pb * -(Real.log ua) ≤ pa * -(Real.log ub) := by
    rw [← Real.log_le_log_iff hub0 (Real.rpow_pos_of_pos hua0 _), Real.log_rpow hua0,
      div_mul_eq_mul_div, le_div_iff₀ hpa]
    constructor <;> intro h <;> nlinarith
  rw [← Real.log_div hpb.ne' hEb.ne', ← Real.log_div hpa.ne' hEa.ne',
    Real.log_le_log_iff (div_pos hpb hEb) (div_pos hpa hEa),
    div_le_div_iff₀ hEb hEa, key]

theorem lintegral_rpow_Ioo01 (C : ℝ) (hC : 0 ≤ C) :
    ∫⁻ t in Set.Ioo (0 : ℝ) 1, ENNReal.ofReal (t ^ C) ∂MeasureTheory.volume
      = ENNReal.ofReal (1 / (C + 1)) := by
  rw [MeasureTheory.Measure.restrict_congr_set MeasureTheory.Ioo_ae_eq_Ioc]
  have hint : MeasureTheory.IntegrableOn (fun t : ℝ => t ^ C) (Set.Ioc 0 1)
      MeasureTheory.volume :=
    (intervalIntegrable_iff_integrableOn_Ioc_of_le (by norm_num)).mp
      (intervalIntegral.intervalIntegrable_rpow' (by linarith))
  have hnn : 0 ≤ᵐ[MeasureTheory.volume.restrict (Set.Ioc (0 : ℝ) 1)]
      fun t : ℝ => t ^ C :=
    MeasureTheory.ae_restrict_of_forall_mem measurableSet_Ioc
      (fun t ht => Real.rpow_nonneg ht.1.le C)
  rw [← MeasureTheory.ofReal_integral_eq_lintegral_ofReal hint hnn]
  congr 1
  have hIoc : ∫ t in Set.Ioc (0 : ℝ) 1, t ^ C ∂MeasureTheory.volume
      = ∫ t in (0 : ℝ)..1, t ^ C := (intervalIntegral.integral_of_le (by norm_num)).symm
  rw [hIoc, integral_rpow (Or.inl (by linarith))]
  rw [Real.one_rpow, Real.zero_rpow (by linarith)]
  norm_num

theorem cubeSet_compl_null (k : ℕ) : cubeMeasure k (cubeSet k)ᶜ = 0 := by
  have hm : MeasurableSet (cubeSet k) :=
    MeasurableSet.univ_pi fun _ => measurableSet_Ioo
  have h1 : cubeMeasure k (cubeSet k) = 1 := by
    unfold cubeMeasure cubeSet
    rw [MeasureTheory.Measure.pi_pi]
    have : unif01 (Set.Ioo 0 1) = 1 := by
      unfold unif01
      rw [MeasureTheory.Measure.restrict_apply measurableSet_Ioo, Set.inter_self,
        Real.volume_Ioo]
      norm_num
    simp [this]
  rw [MeasureTheory.measure_compl hm (MeasureTheory.measure_ne_top _ _), h1,
    MeasureTheory.measure_univ, tsub_self]

theorem tieSet_null {n : ℕ} (s : Fin (n + 1) → ℝ) (a : Fin (n + 1)) (j : Fin n) :
    cubeMeasure (n + 1) (tieSet s a j) = 0 := by
  have hφ := MeasureTheory.measurePreserving_piFinSuccAbove
    (fun _ : Fin (n + 1) => unif01) a
  have hcnn : (0 : ℝ) ≤ softmaxF s (a.succAbove j) / softmaxF s a :=
    (div_pos (softmaxF_pos s _) (softmaxF_pos s a)).le
  have hS : MeasurableSet {tv : ℝ × (Fin n → ℝ) |
      tv.2 j = tv.1 ^ (softmaxF s (a.succAbove j) / softmaxF s a)} :=
    measurableSet_eq_fun (measurable_snd.eval (a := j))
      (Measurable.comp (f := Prod.fst) (Real.continuous_rpow_const hcnn).measurable measurable_fst)
  have hpre : tieSet s a j
      = Set.preimage (MeasurableEquiv.piFinSuccAbove (fun _ => ℝ) a)
        {tv : ℝ × (Fin n → ℝ) |
          tv.2 j = tv.1 ^ (softmaxF s (a.succAbove j) / softmaxF s a)} := rfl
  unfold cubeMeasure
  rw [hpre, hφ.measure_preimage hS.nullMeasurableSet,
    MeasureTheory.Measure.prod_apply hS]
  have hzero : ∀ t : ℝ,
      (MeasureTheory.Measure.pi fun _ : Fin n => unif01)
        (Set.preimage (Prod.mk t) {tv : ℝ × (Fin n → ℝ) |
          tv.2 j = tv.1 ^ (softmaxF s (a.succAbove j) / softmaxF s a)}) = 0 := by
    intro t
    have hset : Set.preimage (Prod.mk t) {tv : ℝ × (Fin n → ℝ) |
          tv.2 j = tv.1 ^ (softmaxF s (a.succAbove j) / softmaxF s a)}
        = Set.pi Set.univ (fun j2 => if j2 = j
            then {t ^ (softmaxF s (a.succAbove j) / softmaxF s a)}
            else (Set.univ : Set ℝ)) := by
      ext v
      simp only [Set.mem_preimage, Set.mem_setOf_eq, Set.mem_pi, Set.mem_univ,
        forall_true_left]
      constructor
      · intro hv j2
        by_cases hj : j2 = j
        · subst hj
          simp [hv]
        · simp [hj]
      · intro hv
        have := hv j
        simpa using this
    rw [hset, MeasureTheory.Measure.pi_pi]
    apply Finset.prod_eq_zero (Finset.mem_univ j)
    rw [if_pos rfl]
    unfold unif01
    rw [MeasureTheory.Measure.restrict_apply (measurableSet_singleton _)]
    exact MeasureTheory.measure_mono_null Set.inter_subset_left Real.volume_singleton
  rw [MeasureTheory.lintegral_congr hzero]
  simp

theorem powEvent_measure {n : ℕ} (s : Fin (n + 1) → ℝ) (a : Fin (n + 1)) :
    cubeMeasure (n + 1) (powEvent s a) = ENNReal.ofReal (softmaxF s a) := by
  have hpa : 0 < softmaxF s a := softmaxF_pos s a
  have hpa1 : softmaxF s a ≤ 1 := by
    rw [← softmaxF_sum s]
    exact Finset.single_le_sum (fun b _ => (softmaxF_pos s b).le) (Finset.mem_univ a)
  have hc : ∀ j : Fin n, 0 < softmaxF s (a.succAbove j) / softmaxF s a :=
    fun j => div_pos (softmaxF_pos s _) hpa
  have hCsum : (∑ j : Fin n, softmaxF s (a.succAbove j) / softmaxF s a)
      = (1 - softmaxF s a) / softmaxF s a := by
    rw [← Finset.sum_div]
    congr 1
    have hsum := Fin.sum_univ_succAbove (fun b => softmaxF s b) a
    rw [softmaxF_sum s] at hsum
    linarith
  have hC : 0 ≤ (1 - softmaxF s a) / softmaxF s a :=
    div_nonneg (by linarith) hpa.le
  have hφ := MeasureTheory.measurePreserving_piFinSuccAbove
    (fun _ : Fin (n + 1) => unif01) a
  have hS : MeasurableSet {tv : ℝ × (Fin n → ℝ) | ∀ j : Fin n,
      tv.2 j < tv.1 ^ (softmaxF s (a.succAbove j) / softmaxF s a)} := by
    rw [Set.setOf_forall
      (fun (j : Fin n) (tv : ℝ × (Fin n → ℝ)) =>
        tv.2 j < tv.1 ^ (softmaxF s (a.succAbove j) / softmaxF s a))]
    exact MeasurableSet.iInter fun j =>
      measurableSet_lt (measurable_snd.eval (a := j))
        (Measurable.comp (f := Prod.fst) (Real.continuous_rpow_const (hc j).le).measurable measurable_fst)
  have hpre : powEvent s a
      = Set.preimage (MeasurableEquiv.piFinSuccAbove (fun _ => ℝ) a)
        {tv : ℝ × (Fin n → ℝ) | ∀ j : Fin n,
          tv.2 j < tv.1 ^ (softmaxF s (a.succAbove j) / softmaxF s a)} := rfl
  unfold cubeMeasure
  rw [hpre, hφ.measure_preimage hS.nullMeasurableSet,
    MeasureTheory.Measure.prod_apply hS]
  have hpt : ∀ t ∈ Set.Ioo (0 : ℝ) 1,
      (MeasureTheory.Measure.pi fun _ : Fin n => unif01)
        (Set.preimage (Prod.mk t) {tv : ℝ × (Fin n → ℝ) | ∀ j : Fin n,
          tv.2 j < tv.1 ^ (softmaxF s (a.succAbove j) / softmaxF s a)})
        = ENNReal.ofReal (t ^ ((1 - softmaxF s a) / softmaxF s a)) := by
    intro t ht
    have hsec : Set.preimage (Prod.mk t) {tv : ℝ × (Fin n → ℝ) | ∀ j : Fin n,
          tv.2 j < tv.1 ^ (softmaxF s (a.succAbove j) / softmaxF s a)}
        = Set.pi Set.univ (fun j => Set.Iio
            (t ^ (softmaxF s (a.succAbove j) / softmaxF s a))) := by
      ext v
      simp [Set.mem_pi]
    rw [hsec, MeasureTheory.Measure.pi_pi]
    have hfac : ∀ j : Fin n,
        unif01 (Set.Iio (t ^ (softmaxF s (a.succAbove j) / softmaxF s a)))
          = ENNReal.ofReal (t ^ (softmaxF s (a.succAbove j) / softmaxF s a)) := by
      intro j
      have hy0 : 0 < t ^ (softmaxF s (a.succAbove j) / softmaxF s a) :=
        Real.rpow_pos_of_pos ht.1 _
      have hy1 : t ^ (softmaxF s (a.succAbove j) / softmaxF s a) ≤ 1 :=
        Real.rpow_le_one ht.1.le ht.2.le (hc j).le
      unfold unif01
      rw [MeasureTheory.Measure.restrict_apply measurableSet_Iio]
      have hinter : Set.Iio (t ^ (softmaxF s (a.succAbove j) / softmaxF s a))
            ∩ Set.Ioo 0 1
          = Set.Ioo 0 (t ^ (softmaxF s (a.succAbove j) / softmaxF s a)) := by
        ext z
        constructor
        · rintro ⟨hz1, hz2, -⟩
          exact ⟨hz2, hz1⟩
        · rintro ⟨hz1, hz2⟩
          exact ⟨hz2, hz1, lt_of_lt_of_le hz2 hy1⟩
      rw [hinter, Real.volume_Ioo, sub_zero]
    rw [Finset.prod_congr rfl (fun j _ => hfac j),
      ← ENNReal.ofReal_prod_of_nonneg (fun j _ => Real.rpow_nonneg ht.1.le _),
      ← Real.rpow_sum_of_pos ht.1, hCsum]
  have hlint : ∫⁻ t, (MeasureTheory.Measure.pi fun _ : Fin n => unif01)
        (Set.preimage (Prod.mk t) {tv : ℝ × (Fin n → ℝ) | ∀ j : Fin n,
          tv.2 j < tv.1 ^ (softmaxF s (a.succAbove j) / softmaxF s a)}) ∂unif01
      = ∫⁻ t in Set.Ioo (0 : ℝ) 1,
          ENNReal.ofReal (t ^ ((1 - softmaxF s a) / softmaxF s a))
          ∂MeasureTheory.volume :=
    MeasureTheory.setLIntegral_congr_fun measurableSet_Ioo
      (MeasureTheory.ae_of_all _ hpt)
  rw [hlint, lintegral_rpow_Ioo01 _ hC]
  congr 1
  have hCp1 : (1 - softmaxF s a) / softmaxF s a + 1 = 1 / softmaxF s a := by
    field_simp
  rw [hCp1, one_div_one_div]

theorem draw_ae_powEvent {n : ℕ} (s : Fin (n + 1) → ℝ) (a : Fin (n + 1)) :
    {u : Fin (n + 1) → ℝ | drawF s u = a} =ᵐ[cubeMeasure (n + 1)] powEvent s a := by
  have hppos : ∀ b, 0 < softmaxF s b := softmaxF_pos s
  rw [MeasureTheory.ae_eq_set]
  constructor
  · apply MeasureTheory.measure_mono_null
      (t := (cubeSet (n + 1))ᶜ ∪ ⋃ j : Fin n, tieSet s a j)
    · intro u hu
      by_cases hcube : u ∈ cubeSet (n + 1)
      · have hcoords : ∀ b, u b ∈ Set.Ioo (0 : ℝ) 1 := fun b => hcube b (Set.mem_univ b)
        have hamax : argmaxF (fun b => -(gumbelR s u b)) = a := hu.1
        have hle : ∀ j : Fin n, u (a.succAbove j)
            ≤ (u a) ^ (softmaxF s (a.succAbove j) / softmaxF s a) := by
          intro j
          have hmax := argmaxF_le (fun b => -(gumbelR s u b)) (a.succAbove j)
          rw [hamax] at hmax
          simp only [neg_gumbelR] at hmax
          exact (gumbelCmp_le (hppos a) (hppos _) (hcoords a) (hcoords _)).mp hmax
        obtain ⟨j, hj⟩ : ∃ j : Fin n, ¬ (u (a.succAbove j)
            < (u a) ^ (softmaxF s (a.succAbove j) / softmaxF s a)) := by
          by_contra hall
          push_neg at hall
          exact hu.2 hall
        exact Or.inr (Set.mem_iUnion.mpr ⟨j, le_antisymm (hle j) (not_lt.mp hj)⟩)
      · exact Or.inl hcube
    · exact MeasureTheory.measure_union_null (cubeSet_compl_null (n + 1))
        (MeasureTheory.measure_iUnion_null fun j => tieSet_null s a j)
  · apply MeasureTheory.measure_mono_null (t := (cubeSet (n + 1))ᶜ)
    · intro u hu
      by_contra hcube
      rw [Set.not_mem_compl_iff] at hcube
      have hcoords : ∀ b, u b ∈ Set.Ioo (0 : ℝ) 1 := fun b => hcube b (Set.mem_univ b)
      apply hu.2
      show argmaxF (fun b => -(gumbelR s u b)) = a
      apply argmaxF_eq_of_strict
      intro b hb
      obtain ⟨j, rfl⟩ := Fin.exists_succAbove_eq hb
      have hlt := hu.1 j
      have hcmp := (gumbelCmp_lt (hppos a) (hppos (a.succAbove j)) (hcoords a)
        (hcoords (a.succAbove j))).mpr hlt
      simp only [neg_gumbelR]
      exact hcmp
    · exact cubeSet_compl_null (n + 1)

theorem drawF_measure_succ {n : ℕ} (s : Fin (n + 1) → ℝ) (a : Fin (n + 1)) :
    cubeMeasure (n + 1) {u | drawF s u = a} = ENNReal.ofReal (softmaxF s a) := by
  rw [MeasureTheory.measure_congr (draw_ae_powEvent s a)]
  exact powEvent_measure s a

theorem drawF_measure {k : ℕ} [NeZero k] (s : Fin k → ℝ) (a : Fin k) :
    cubeMeasure k {u | drawF s u = a} = ENNReal.ofReal (softmaxF s a) := by
  obtain ⟨n, rfl⟩ : ∃ n, k = n + 1 :=
    ⟨k - 1, (Nat.succ_pred_eq_of_pos (Nat.pos_of_ne_zero (NeZero.ne k))).symm⟩
  exact drawF_measure_succ s a

/-- C1: the Boltzmann draw computes the scores, perturbs the per-action log-softmax
with Gumbel noise built from independent uniforms, and returns the argmax; the
returned action is distributed exactly as the softmax: for every action a, the
probability of drawing a equals softmax(s/tau)[a] = probability(x, a). -/
theorem boltzmann_draw_gumbel_softmax (p : BoltzmannPolicy) [NeZero p.k]
    (x : SparseVec) (a : Fin p.k) :
    cubeMeasure p.k {u | p.draw x u = a} = ENNReal.ofReal (p.probability x a) :=
  drawF_measure (p.scoreF x) a

/-- Witness for C1 at a concrete instance: the 2-action zero-weight policy. -/
theorem boltzmann_draw_gumbel_softmax_witness :
    cubeMeasure wBp.k {u | wBp.draw wXrow u = ⟨0, by decide⟩}
      = ENNReal.ofReal (wBp.probability wXrow ⟨0, by decide⟩) :=
  boltzmann_draw_gumbel_softmax wBp wXrow ⟨0, by decide⟩

end SafeExp
